import Mathlib

/-!
# Verification of the gekkio-scpi parameter encoder

A shallow embedding of `src/param.rs` and `src/lib.rs` of the
`gekkio-scpi` crate: the `Parameter` trait (one operation: write the
value's SCPI wire representation into a caller-supplied byte sink) and
its implementations for `Discrete`, `&str`, `Block`, `f32`,
`DefaultValue`, `Limit`, `Step`, `bool`, integers (via `ScpiDisplay`,
i.e. Rust's `Display` decimal formatting), `()` and tuples of arity
2 to 4.

The embedding models release-build semantics: `debug_assert!` compiles
to a no-op, and `?` propagates only the sink's own I/O errors (the
encoders in this crate produce no errors of their own).
-/

namespace Scpi

/-- Abstract byte sink, modelling Rust's `io::Write`: a sink-state type
`σ`, a sink-defined error type `ε`, and a fallible `write_all`. -/
structure Writer (σ ε : Type) where
  writeAll : σ → List UInt8 → Except ε σ

/-- The infallible in-memory sink (Rust `Vec<u8>` as used in the crate's
tests): state is the list of bytes written so far, `write_all` appends. -/
def bufWriter (ε : Type) : Writer (List UInt8) ε :=
  ⟨fun s bs => Except.ok (s ++ bs)⟩

/-- UTF-8 encoding of one unicode scalar value, as in Rust's
`str::as_bytes` (and Lean's own `String.utf8EncodeChar`). -/
def utf8EncodeCh (c : Char) : List UInt8 :=
  let v := c.toNat
  if v < 0x80 then
    [UInt8.ofNat v]
  else if v < 0x800 then
    [UInt8.ofNat (0xC0 + v / 0x40), UInt8.ofNat (0x80 + v % 0x40)]
  else if v < 0x10000 then
    [UInt8.ofNat (0xE0 + v / 0x1000),
     UInt8.ofNat (0x80 + v / 0x40 % 0x40),
     UInt8.ofNat (0x80 + v % 0x40)]
  else
    [UInt8.ofNat (0xF0 + v / 0x40000),
     UInt8.ofNat (0x80 + v / 0x1000 % 0x40),
     UInt8.ofNat (0x80 + v / 0x40 % 0x40),
     UInt8.ofNat (0x80 + v % 0x40)]

/-- The UTF-8 bytes of a string: Rust's `str::as_bytes`. -/
def utf8Bytes (s : String) : List UInt8 :=
  s.data.flatMap utf8EncodeCh

/-- Rust's `char::is_ascii`. -/
def isAscii (c : Char) : Prop := c.toNat ≤ 0x7F

/-- Rust's `char::is_ascii_control`: U+0000..U+001F or U+007F. -/
def isAsciiControl (c : Char) : Prop := c.toNat ≤ 0x1F ∨ c.toNat = 0x7F

/-- Rust's `char::is_ascii_whitespace`: space, horizontal tab, line
feed, form feed or carriage return. -/
def isAsciiWhitespace (c : Char) : Prop :=
  c.toNat = 0x20 ∨ c.toNat = 0x09 ∨ c.toNat = 0x0A ∨ c.toNat = 0x0C ∨ c.toNat = 0x0D

instance (c : Char) : Decidable (isAscii c) := by unfold isAscii; infer_instance

instance (c : Char) : Decidable (isAsciiControl c) := by unfold isAsciiControl; infer_instance

instance (c : Char) : Decidable (isAsciiWhitespace c) := by unfold isAsciiWhitespace; infer_instance

/-- Rust's `struct Discrete(pub &'static str)` from `lib.rs`. -/
structure Discrete where
  text : String

/-- Rust's `struct Block<'a>(pub &'a [u8])` from `lib.rs`. -/
structure Block where
  bytes : List UInt8

/-- Rust's `struct DefaultValue` from `lib.rs`. -/
inductive DefaultValue where
  | mk

/-- Rust's `enum Limit` with variants `Min` and `Max`, from `lib.rs`. -/
inductive Limit where
  | min
  | max

/-- Rust's `enum Step` with variants `Up` and `Down`, from `lib.rs`. -/
inductive Step where
  | up
  | down

/-- Model of `impl Parameter for Discrete`: release semantics. The
`debug_assert!` that every character is ASCII and not a
non-whitespace control character is a no-op in release builds
(`// TODO: return error instead`), after which the mnemonic's bytes
are written through verbatim. -/
def encodeDiscrete {σ ε : Type} (w : Writer σ ε) (self : Discrete) (s : σ) :
    Except ε σ :=
  w.writeAll s (utf8Bytes self.text)

/-- The per-character body of the `for ch in self.chars()` loop of
`impl Parameter for &str`: a double quote is escaped by doubling;
an ASCII character that is not a disallowed control character is
written as its single byte; anything else hits the
`// TODO: return error instead` arm and is written as `b"*"`. -/
def encodeStrChar {σ ε : Type} (w : Writer σ ε) (ch : Char) (s : σ) :
    Except ε σ :=
  if ch = '\"' then
    w.writeAll s [34, 34]
  else if isAscii ch ∧ ¬(isAsciiControl ch ∧ ¬isAsciiWhitespace ch) then
    w.writeAll s [UInt8.ofNat ch.toNat]
  else
    w.writeAll s [42]

/-- The `for` loop of `impl Parameter for &str`, over the remaining
characters, with `?`-propagation of sink errors. -/
def encodeStrChars {σ ε : Type} (w : Writer σ ε) :
    List Char → σ → Except ε σ
  | [], s => Except.ok s
  | ch :: rest, s => do
    let s ← encodeStrChar w ch s
    encodeStrChars w rest s

/-- Model of `impl Parameter for &str :: encode`: opening quote, the character
loop, closing quote. -/
def encodeStr {σ ε : Type} (w : Writer σ ε) (self : String) (s : σ) :
    Except ε σ := do
  let s ← w.writeAll s [34]
  let s ← encodeStrChars w self.data s
  w.writeAll s [34]

/-- Rust's `write!("{}", n)` for an unsigned integer (`usize` here):
the big-endian decimal ASCII digits of `n`, no leading zeros, `"0"`
for zero. -/
def decDigits (n : Nat) : List UInt8 :=
  if h : n < 10 then
    [UInt8.ofNat (48 + n)]
  else
    decDigits (n / 10) ++ [UInt8.ofNat (48 + n % 10)]
  termination_by n
  decreasing_by exact Nat.div_lt_self (by omega) (by omega)

/-- Model of `impl Parameter for Block :: encode`: write `#`; format
`self.0.len()` in decimal into a scratch buffer (the 64-byte buffer
always suffices, a `usize` has at most 20 decimal digits); `digits`
is the number of bytes that formatting produced; write the single
byte `b'0' + digits as u8`; write the decimal digits; write the raw
bytes. -/
def encodeBlock {σ ε : Type} (w : Writer σ ε) (self : Block) (s : σ) :
    Except ε σ := do
  let s ← w.writeAll s [35]
  let digits := (decDigits self.bytes.length).length
  let s ← w.writeAll s [UInt8.ofNat (48 + digits)]
  let s ← w.writeAll s (decDigits self.bytes.length)
  w.writeAll s self.bytes

/-- Model of an `f32` as the encoder observes it: a finite value
(carrying its exact real value as a rational — every finite `f32`
is one — together with the string Rust's `\x7b:E\x7d` upper-exponent
formatting produces for it), a NaN, or an infinity with its sign
bit (`true` = `is_sign_positive`). -/
inductive F32 where
  | finite (val : ℚ) (sci : String)
  | nan
  | inf (signPositive : Bool)

/-- Model of `impl Parameter for f32 :: encode`: release semantics. The
`debug_assert!(!(self > 9.9E37 || self < -9.9E37))` is a no-op in
release builds (`// TODO: return error instead`). A finite value is
written via `write!("{:E}", self)`; a NaN as `NAN`; an infinity as
`INF` or `NINF` by `is_sign_positive`. -/
def encodeF32 {σ ε : Type} (w : Writer σ ε) (self : F32) (s : σ) :
    Except ε σ :=
  match self with
  | .finite _ sci => w.writeAll s (utf8Bytes sci)
  | .nan => w.writeAll s (utf8Bytes "NAN")
  | .inf true => w.writeAll s (utf8Bytes "INF")
  | .inf false => w.writeAll s (utf8Bytes "NINF")

/-- Model of `impl Parameter for DefaultValue`: writes `DEF`. -/
def encodeDefaultValue {σ ε : Type} (w : Writer σ ε) (_self : DefaultValue)
    (s : σ) : Except ε σ :=
  w.writeAll s (utf8Bytes "DEF")

/-- Model of `impl Parameter for Limit`: `MIN` or `MAX`. -/
def encodeLimit {σ ε : Type} (w : Writer σ ε) (self : Limit) (s : σ) :
    Except ε σ :=
  match self with
  | .min => w.writeAll s (utf8Bytes "MIN")
  | .max => w.writeAll s (utf8Bytes "MAX")

/-- Model of `impl Parameter for Step`: `UP` or `DOWN`. -/
def encodeStep {σ ε : Type} (w : Writer σ ε) (self : Step) (s : σ) :
    Except ε σ :=
  match self with
  | .up => w.writeAll s (utf8Bytes "UP")
  | .down => w.writeAll s (utf8Bytes "DOWN")

/-- Model of `impl Parameter for bool`: `1` for true, `0` for false. -/
def encodeBool {σ ε : Type} (w : Writer σ ε) (self : Bool) (s : σ) :
    Except ε σ :=
  match self with
  | true => w.writeAll s [49]
  | false => w.writeAll s [48]

/-- The blanket `impl<T: ScpiDisplay> Parameter for T` at an unsigned
integer type: `write!("{}", self)` is the decimal digits. -/
def encodeUInt {σ ε : Type} (w : Writer σ ε) (self : Nat) (s : σ) :
    Except ε σ :=
  w.writeAll s (decDigits self)

/-- The blanket `impl<T: ScpiDisplay> Parameter for T` at a signed
integer type: `write!("{}", self)` is an optional leading `-`
followed by the decimal digits of the magnitude. -/
def encodeInt {σ ε : Type} (w : Writer σ ε) (self : Int) (s : σ) :
    Except ε σ :=
  if self < 0 then
    w.writeAll s (45 :: decDigits self.natAbs)
  else
    w.writeAll s (decDigits self.natAbs)

/-- Model of `impl Parameter for ()`: generic over any sink type (the Rust impl
does not even require `W: Write`), touches the sink not at all and
returns `Ok(())`. -/
def encodeUnit {σ ε : Type} (_w : Writer σ ε) (_self : Unit) (s : σ) :
    Except ε σ :=
  Except.ok s

/-- Model of `impl<A: Parameter, B: Parameter> Parameter for (A, B)`: the
elements' own `encode` calls are abstracted as sink-state
transformers `encA`, `encB` (each standing for
`self.i.encode(w)`). Encode element 0, write one comma byte, encode
element 1, with `?`-propagation. -/
def encodeTuple2 {σ ε : Type} (w : Writer σ ε)
    (encA encB : σ → Except ε σ) (s : σ) : Except ε σ := do
  let s ← encA s
  let s ← w.writeAll s [44]
  encB s

/-- Model of `impl Parameter for (A, B, C)`: as `encodeTuple2`, with a comma
before every element except the first. -/
def encodeTuple3 {σ ε : Type} (w : Writer σ ε)
    (encA encB encC : σ → Except ε σ) (s : σ) : Except ε σ := do
  let s ← encA s
  let s ← w.writeAll s [44]
  let s ← encB s
  let s ← w.writeAll s [44]
  encC s

/-- Model of `impl Parameter for (A, B, C, D)`: as `encodeTuple2`, with a comma
before every element except the first. -/
def encodeTuple4 {σ ε : Type} (w : Writer σ ε)
    (encA encB encC encD : σ → Except ε σ) (s : σ) : Except ε σ := do
  let s ← encA s
  let s ← w.writeAll s [44]
  let s ← encB s
  let s ← w.writeAll s [44]
  let s ← encC s
  let s ← w.writeAll s [44]
  encD s

/-- An encode action is an appender producing `out`: on the in-memory
sink it always succeeds and appends exactly the bytes `out`,
whatever the sink already contains. Every `Parameter` impl of the
crate has this shape, since the sink is reached only through
`write_all`. -/
def encodesTo {ε : Type} (enc : List UInt8 → Except ε (List UInt8))
    (out : List UInt8) : Prop :=
  ∀ s, enc s = Except.ok (s ++ out)

/-- Reading a list of ASCII digit bytes back as a decimal number. -/
def readDec (l : List UInt8) : Nat :=
  l.foldl (fun acc b => acc * 10 + (b.toNat - 48)) 0

/-- Spec-side helper: the number of decimal digits of `n`
(`1` for `n = 0`). -/
def numDecDigits (n : Nat) : Nat := Nat.log 10 n + 1

/-- The bytes the `&str` character loop writes for one character, read
off from the loop body. -/
def strCharBytes (ch : Char) : List UInt8 :=
  if ch = '\"' then [34, 34]
  else if isAscii ch ∧ ¬(isAsciiControl ch ∧ ¬isAsciiWhitespace ch) then
    [UInt8.ofNat ch.toNat]
  else [42]

theorem toNat_ofNat8 (n : Nat) : (UInt8.ofNat n).toNat = n % 256 := rfl

theorem readDec_append (l : List UInt8) (b : UInt8) :
    readDec (l ++ [b]) = readDec l * 10 + (b.toNat - 48) := by
  simp [readDec, List.foldl_append]

theorem readDec_decDigits (n : Nat) : readDec (decDigits n) = n := by
  induction n using decDigits.induct with
  | case1 n h =>
    rw [decDigits]
    simp only [h, dite_true, readDec, List.foldl]
    have : (UInt8.ofNat (48 + n)).toNat = 48 + n := by
      rw [toNat_ofNat8]
      omega
    omega
  | case2 n h ih =>
    rw [decDigits]
    simp only [h, dite_false, readDec_append, ih]
    have h10 : n % 10 < 10 := Nat.mod_lt _ (by omega)
    have : (UInt8.ofNat (48 + n % 10)).toNat = 48 + n % 10 := by
      rw [toNat_ofNat8]
      omega
    omega

theorem length_decDigits (n : Nat) : (decDigits n).length = numDecDigits n := by
  unfold numDecDigits
  induction n using decDigits.induct with
  | case1 n h =>
    rw [decDigits]
    simp only [h, dite_true, List.length_singleton]
    have : Nat.log 10 n = 0 := Nat.log_eq_zero_iff.mpr (Or.inl h)
    omega
  | case2 n h ih =>
    rw [decDigits]
    simp only [h, dite_false, List.length_append, List.length_singleton, ih]
    have hpos : 0 < Nat.log 10 n := Nat.log_pos (by omega) (by omega)
    have := Nat.log_div_base 10 n
    omega

theorem decDigits_digit_bytes (n : Nat) :
    ∀ b ∈ decDigits n, 48 ≤ b.toNat ∧ b.toNat ≤ 57 := by
  induction n using decDigits.induct with
  | case1 n h =>
    rw [decDigits]
    simp only [h, dite_true, List.mem_singleton]
    intro b hb
    subst hb
    rw [toNat_ofNat8]
    omega
  | case2 n h ih =>
    rw [decDigits]
    simp only [h, dite_false, List.mem_append, List.mem_singleton]
    intro b hb
    rcases hb with hb | hb
    · exact ih b hb
    · subst hb
      have h10 : n % 10 < 10 := Nat.mod_lt _ (by omega)
      rw [toNat_ofNat8]
      omega

/-- The function `numDecDigits` really counts decimal digits: `n < 10 ^ d`, and for
nonzero `n` also `10 ^ (d - 1) ≤ n`. -/
theorem numDecDigits_spec (n : Nat) :
    n < 10 ^ numDecDigits n ∧ 1 ≤ numDecDigits n ∧
      (n ≠ 0 → 10 ^ (numDecDigits n - 1) ≤ n) := by
  unfold numDecDigits
  refine ⟨Nat.lt_pow_succ_log_self (by omega) n, by omega, fun hn => ?_⟩
  simpa using Nat.pow_log_le_self 10 hn

theorem numDecDigits_le_nine {n : Nat} (h : n ≤ 999999999) :
    numDecDigits n ≤ 9 := by
  unfold numDecDigits
  rcases Nat.eq_zero_or_pos n with h0 | h0
  · subst h0; simp
  · have := Nat.log_lt_of_lt_pow (b := 10) (x := 9) (by omega : n ≠ 0)
      (by norm_num; omega)
    omega

theorem encodeStrChar_bufWriter {ε : Type} (ch : Char) (s : List UInt8) :
    encodeStrChar (bufWriter ε) ch s = Except.ok (s ++ strCharBytes ch) := by
  unfold encodeStrChar strCharBytes
  split
  · rfl
  · split
    · rfl
    · rfl

/-- Propagation with `?` on an already-successful write just continues: `Except`'s bind
on an `ok` value reduces. -/
theorem ok_bind {ε α β : Type} (a : α) (f : α → Except ε β) :
    ((Except.ok a : Except ε α) >>= f) = f a := rfl

theorem bufWriter_writeAll {ε : Type} (s bs : List UInt8) :
    (bufWriter ε).writeAll s bs = Except.ok (s ++ bs) := rfl

theorem encodeStrChars_bufWriter {ε : Type} (cs : List Char) (s : List UInt8) :
    encodeStrChars (bufWriter ε) cs s =
      Except.ok (s ++ cs.flatMap strCharBytes) := by
  induction cs generalizing s with
  | nil => simp [encodeStrChars]
  | cons ch rest ih =>
    simp only [encodeStrChars, encodeStrChar_bufWriter, List.flatMap_cons,
      ok_bind, ih]
    simp

theorem encodeStr_bufWriter {ε : Type} (str : String) (s : List UInt8) :
    encodeStr (bufWriter ε) str s =
      Except.ok (s ++ [34] ++ str.data.flatMap strCharBytes ++ [34]) := by
  simp only [encodeStr, bufWriter_writeAll, ok_bind, encodeStrChars_bufWriter]

theorem encodeBlock_bufWriter {ε : Type} (b : Block) (s : List UInt8) :
    encodeBlock (bufWriter ε) b s =
      Except.ok (s ++ [35] ++
        [UInt8.ofNat (48 + (decDigits b.bytes.length).length)] ++
        decDigits b.bytes.length ++ b.bytes) := by
  simp only [encodeBlock, bufWriter_writeAll, ok_bind]

theorem strCharBytes_allowed {ch : Char}
    (h : isAscii ch ∧ ¬(isAsciiControl ch ∧ ¬isAsciiWhitespace ch)) :
    strCharBytes ch = if ch = '\"' then [34, 34] else [UInt8.ofNat ch.toNat] := by
  by_cases hq : ch = '\"' <;> simp [strCharBytes, hq, h]

theorem charByte_ne_34 {ch : Char} (ha : isAscii ch) (hne : ch ≠ '\"') :
    UInt8.ofNat ch.toNat ≠ 34 := by
  intro he
  apply hne
  have h1 : (UInt8.ofNat ch.toNat).toNat = 34 := by rw [he]; rfl
  rw [toNat_ofNat8] at h1
  unfold isAscii at ha
  have h2 : ch.toNat = 34 := by omega
  have h3 := Char.ofNat_toNat ch
  rw [h2] at h3
  rw [← h3]

theorem count_escaped_34 (cs : List Char)
    (h : ∀ ch ∈ cs, isAscii ch ∧ ¬(isAsciiControl ch ∧ ¬isAsciiWhitespace ch)) :
    ((cs.flatMap fun ch =>
        if ch = '\"' then [34, 34] else [UInt8.ofNat ch.toNat]).count 34) =
      2 * cs.count '\"' := by
  induction cs with
  | nil => rfl
  | cons ch rest ih =>
    simp only [List.flatMap_cons, List.count_append, List.count_cons]
    rw [ih (fun c hc => h c (List.mem_cons_of_mem _ hc))]
    by_cases hq : ch = '\"'
    · subst hq
      simp [List.count_cons]
      omega
    · have ha := (h ch (List.mem_cons_self _ _)).1
      have hb := charByte_ne_34 ha hq
      simp [hq, List.count_cons, List.count_singleton, hb]

/-- Claim C1 (code-bug evaluation): the string encoder does not reject
a disallowed character. Encoding `"é"` — a non-ASCII character, hence
outside the permitted set — succeeds and writes the placeholder byte
`*` (42) between the quotes instead of returning an encoding error. -/
theorem encodeStr_disallowed_writes_placeholder :
    ¬(isAscii 'é' ∧ ¬(isAsciiControl 'é' ∧ ¬isAsciiWhitespace 'é')) ∧
      encodeStr (bufWriter Unit) "é" [] = Except.ok [34, 42, 34] :=
  ⟨by decide, rfl⟩

/-- Claim C3 (code-bug evaluation): in release builds the f32 encoder
performs no range check — the `debug_assert!` is compiled out — so a
finite value whose magnitude exceeds 9.9 × 10³⁷ has its scientific
rendering written to the sink and no error of any kind is returned. -/
theorem encodeF32_finite_never_range_errors {ε : Type} (q : ℚ) (sci : String)
    (s : List UInt8) (_h : 99 * 10 ^ 36 < |q|) :
    encodeF32 (bufWriter ε) (F32.finite q sci) s = Except.ok (s ++ utf8Bytes sci) :=
  rfl

/-- The f32 value `1.0E38` (exact binary value
99999996802856924650656260769173209088, rendered `1E38` by Rust's
`\x7b:E\x7d` formatting) exceeds 9.9 × 10³⁷, yet encodes successfully
to the bytes `1E38`. -/
theorem encodeF32_finite_never_range_errors_witness :
    99 * 10 ^ 36 < |(99999996802856924650656260769173209088 : ℚ)| ∧
      encodeF32 (bufWriter Unit)
        (F32.finite 99999996802856924650656260769173209088 "1E38") [] =
        Except.ok [49, 69, 51, 56] :=
  ⟨by norm_num,
   (encodeF32_finite_never_range_errors
      99999996802856924650656260769173209088 "1E38" [] (by norm_num)).trans rfl⟩

/-- Claim C4 (code-bug evaluation): the Discrete encoder does not
reject a disallowed mnemonic. In release builds the `debug_assert!` is
compiled out, and the mnemonic `"é"` — non-ASCII — has its UTF-8 bytes
(195, 169) written through unchanged with a success result. -/
theorem encodeDiscrete_disallowed_passes_through :
    ¬isAscii 'é' ∧
      encodeDiscrete (bufWriter Unit) ⟨"é"⟩ [] = Except.ok [195, 169] :=
  ⟨by decide, rfl⟩

/-- Claim C8: for every non-finite float the encoder emits exactly the
literal bytes `NAN` for a NaN, `INF` for positive infinity and `NINF`
for negative infinity. -/
theorem encodeF32_nonfinite_literals {ε : Type} (s : List UInt8) :
    encodeF32 (bufWriter ε) F32.nan s = Except.ok (s ++ [78, 65, 78]) ∧
    encodeF32 (bufWriter ε) (F32.inf true) s = Except.ok (s ++ [73, 78, 70]) ∧
    encodeF32 (bufWriter ε) (F32.inf false) s = Except.ok (s ++ [78, 73, 78, 70]) :=
  ⟨rfl, rfl, rfl⟩

/-- Claim C2 (code-bug evaluation): a block of 10⁹ bytes is not
rejected. The encoder returns success, and the single digit-count
byte it writes is `b'0' + 10 = 58`, ASCII `:`, which is not a decimal
digit: the field is silently corrupted instead of failing with a
`BlockTooLarge` error. -/
theorem encodeBlock_gigabyte_not_rejected {ε : Type} (b : Block)
    (s : List UInt8) (h : b.bytes.length = 1000000000) :
    encodeBlock (bufWriter ε) b s =
      Except.ok (s ++ [35] ++ [UInt8.ofNat 58] ++
        decDigits 1000000000 ++ b.bytes) ∧
      (decDigits 1000000000).length = 10 ∧ (UInt8.ofNat 58).toNat = 58 := by
  have hd : (decDigits 1000000000).length = 10 := by simp [decDigits]
  refine ⟨?_, hd, rfl⟩
  rw [encodeBlock_bufWriter, h, hd]

/-- A concrete 10⁹-byte block (all zeros) hits the boundary: its
encoding succeeds with the non-digit count byte 58. -/
theorem encodeBlock_gigabyte_not_rejected_witness :
    (List.replicate 1000000000 (0 : UInt8)).length = 1000000000 ∧
      (encodeBlock (bufWriter Unit) ⟨List.replicate 1000000000 0⟩ [] =
          Except.ok ([] ++ [35] ++ [UInt8.ofNat 58] ++
            decDigits 1000000000 ++ List.replicate 1000000000 0) ∧
        (decDigits 1000000000).length = 10 ∧ (UInt8.ofNat 58).toNat = 58) :=
  ⟨by rw [List.length_replicate],
   encodeBlock_gigabyte_not_rejected ⟨List.replicate 1000000000 0⟩ []
     (by rw [List.length_replicate])⟩

/-- Claim C5: for every byte span whose length `L` is at most
999999999, the Block encoder writes exactly `#`, then one byte
`b'0' + d` where `d` is the number of decimal digits of `L`
(`1 ≤ d ≤ 9`, so the byte is an ASCII digit, and `d = 1` for `L = 0`),
then the decimal ASCII digits of `L` (a `d`-byte field of digits
48–57 that reads back as `L`), then the `L` raw bytes verbatim. -/
theorem encodeBlock_format_within_range {ε : Type} (b : Block)
    (s : List UInt8) (h : b.bytes.length ≤ 999999999) :
    encodeBlock (bufWriter ε) b s =
      Except.ok (s ++ [35] ++ [UInt8.ofNat (48 + numDecDigits b.bytes.length)] ++
        decDigits b.bytes.length ++ b.bytes) ∧
      (decDigits b.bytes.length).length = numDecDigits b.bytes.length ∧
      readDec (decDigits b.bytes.length) = b.bytes.length ∧
      (∀ x ∈ decDigits b.bytes.length, 48 ≤ x.toNat ∧ x.toNat ≤ 57) ∧
      1 ≤ numDecDigits b.bytes.length ∧ numDecDigits b.bytes.length ≤ 9 ∧
      b.bytes.length < 10 ^ numDecDigits b.bytes.length ∧
      (b.bytes.length ≠ 0 → 10 ^ (numDecDigits b.bytes.length - 1) ≤ b.bytes.length) := by
  refine ⟨?_, length_decDigits _, readDec_decDigits _, decDigits_digit_bytes _,
    (numDecDigits_spec _).2.1, numDecDigits_le_nine h,
    (numDecDigits_spec _).1, (numDecDigits_spec _).2.2⟩
  rw [encodeBlock_bufWriter, length_decDigits]

/-- The crate's own test vector: the 3-byte block `[0x11, 0x22, 0x33]`
encodes to `#13` followed by the raw bytes. -/
theorem encodeBlock_format_within_range_witness :
    (Block.mk [17, 34, 51]).bytes.length ≤ 999999999 ∧
      encodeBlock (bufWriter Unit) (Block.mk [17, 34, 51]) [] =
        Except.ok [35, 49, 51, 17, 34, 51] := by
  refine ⟨by decide, ?_⟩
  have h := encodeBlock_format_within_range (ε := Unit) (Block.mk [17, 34, 51]) [] (by decide)
  have hb : (Block.mk [17, 34, 51]).bytes = [17, 34, 51] := rfl
  simp only [hb, List.length_cons, List.length_nil] at h
  have hd : numDecDigits 3 = 1 := by
    rw [← length_decDigits]
    simp [decDigits]
  rw [hd] at h
  rw [h.1]
  simp [decDigits]

/-- Claim C6: for a string all of whose characters are allowed (ASCII
and not a non-whitespace control character), the encoder's output is
exactly one opening quote, the characters in order with each `\x22`
doubled and every other character emitted as its single byte, and one
closing quote; consequently the number of quote bytes in the output is
`2 + 2·k` where `k` counts the `\x22` characters of the input — in
particular it is even, so the output is quote-balanced. -/
theorem encodeStr_allowed_exact_output {ε : Type} (self : String)
    (s : List UInt8)
    (h : ∀ ch ∈ self.data, isAscii ch ∧ ¬(isAsciiControl ch ∧ ¬isAsciiWhitespace ch)) :
    encodeStr (bufWriter ε) self s =
      Except.ok (s ++ [34] ++
        (self.data.flatMap fun ch =>
          if ch = '\"' then [34, 34] else [UInt8.ofNat ch.toNat]) ++ [34]) ∧
      ([34] ++
        (self.data.flatMap fun ch =>
          if ch = '\"' then [34, 34] else [UInt8.ofNat ch.toNat]) ++
        [34]).count 34 = 2 + 2 * self.data.count '\"' := by
  constructor
  · rw [encodeStr_bufWriter,
      List.flatMap_congr (fun ch hch => strCharBytes_allowed (h ch hch))]
  · simp only [List.count_append, count_escaped_34 self.data h]
    simp [List.count_singleton]
    omega

/-- The crate's own escape test: `what if "quotes" break 'stuff'?`
encodes with every inner quote doubled and balanced outer quotes. -/
theorem encodeStr_allowed_exact_output_witness :
    (∀ ch ∈ ("what if \"quotes\" break 'stuff'?" : String).data,
        isAscii ch ∧ ¬(isAsciiControl ch ∧ ¬isAsciiWhitespace ch)) ∧
      encodeStr (bufWriter Unit) "what if \"quotes\" break 'stuff'?" [] =
        Except.ok (utf8Bytes "\"what if \"\"quotes\"\" break 'stuff'?\"") := by
  refine ⟨by decide, ?_⟩
  have h := encodeStr_allowed_exact_output (ε := Unit)
    "what if \"quotes\" break 'stuff'?" [] (by decide)
  rw [h.1]
  rfl

/-- Claim C7: for composite tuples of arity 2, 3 and 4 whose elements
all encode successfully (each element's encode call appends its own
encoding `out`ᵢ to any sink state), the tuple encoder's output is the
elements' encodings in order, with exactly one comma byte between
consecutive elements, a comma before every element except the first,
and no trailing comma. -/
theorem encodeTuple_comma_joins {ε : Type}
    (encA encB encC encD : List UInt8 → Except ε (List UInt8))
    (outA outB outC outD s : List UInt8)
    (hA : encodesTo encA outA) (hB : encodesTo encB outB)
    (hC : encodesTo encC outC) (hD : encodesTo encD outD) :
    encodeTuple2 (bufWriter ε) encA encB s =
      Except.ok (s ++ outA ++ [44] ++ outB) ∧
    encodeTuple3 (bufWriter ε) encA encB encC s =
      Except.ok (s ++ outA ++ [44] ++ outB ++ [44] ++ outC) ∧
    encodeTuple4 (bufWriter ε) encA encB encC encD s =
      Except.ok (s ++ outA ++ [44] ++ outB ++ [44] ++ outC ++ [44] ++ outD) := by
  unfold encodesTo at hA hB hC hD
  refine ⟨?_, ?_, ?_⟩ <;>
    simp only [encodeTuple2, encodeTuple3, encodeTuple4, hA, hB, hC, hD,
      bufWriter_writeAll, ok_bind]

/-- A concrete pair and quadruple of sentinel encoders: `1,DEF` and
`1,DEF,MIN,UP`. -/
theorem encodeTuple_comma_joins_witness :
    encodeTuple2 (bufWriter Unit) (encodeBool (bufWriter Unit) true)
        (encodeDefaultValue (bufWriter Unit) DefaultValue.mk) [] =
      Except.ok [49, 44, 68, 69, 70] ∧
    encodeTuple4 (bufWriter Unit) (encodeBool (bufWriter Unit) true)
        (encodeDefaultValue (bufWriter Unit) DefaultValue.mk)
        (encodeLimit (bufWriter Unit) Limit.min)
        (encodeStep (bufWriter Unit) Step.up) [] =
      Except.ok [49, 44, 68, 69, 70, 44, 77, 73, 78, 44, 85, 80] := by
  have h := encodeTuple_comma_joins (ε := Unit)
    (encodeBool (bufWriter Unit) true)
    (encodeDefaultValue (bufWriter Unit) DefaultValue.mk)
    (encodeLimit (bufWriter Unit) Limit.min)
    (encodeStep (bufWriter Unit) Step.up)
    [49] [68, 69, 70] [77, 73, 78] [85, 80] []
    (fun s => rfl) (fun s => rfl) (fun s => rfl) (fun s => rfl)
  exact ⟨h.1.trans rfl, h.2.2.trans rfl⟩

/-- Claim C9: encoding is a deterministic function of the value. For
every supported parameter kind and every value of it there is a single
byte string `out`, determined by the value alone, such that each
encode call appends exactly `out` to the sink; hence two encode calls
on equal values write byte-identical output. For the composite tuple
kinds (arity 2, 3 and 4) the elements are arbitrary `Parameter`
values, abstracted as their encode actions: whenever each element's
action appends its own determined encoding, the tuple's encoding is a
determined byte string as well. -/
theorem encode_deterministic {ε : Type} (d : Discrete) (str : String)
    (b : Block) (v : F32) (df : DefaultValue) (lim : Limit) (st : Step)
    (bo : Bool) (n : Nat) (i : Int)
    (encA encB encC encD : List UInt8 → Except ε (List UInt8))
    (outA outB outC outD : List UInt8)
    (hA : encodesTo encA outA) (hB : encodesTo encB outB)
    (hC : encodesTo encC outC) (hD : encodesTo encD outD) :
    (∃ out, encodesTo (encodeDiscrete (bufWriter ε) d) out) ∧
    (∃ out, encodesTo (encodeStr (bufWriter ε) str) out) ∧
    (∃ out, encodesTo (encodeBlock (bufWriter ε) b) out) ∧
    (∃ out, encodesTo (encodeF32 (bufWriter ε) v) out) ∧
    (∃ out, encodesTo (encodeDefaultValue (bufWriter ε) df) out) ∧
    (∃ out, encodesTo (encodeLimit (bufWriter ε) lim) out) ∧
    (∃ out, encodesTo (encodeStep (bufWriter ε) st) out) ∧
    (∃ out, encodesTo (encodeBool (bufWriter ε) bo) out) ∧
    (∃ out, encodesTo (encodeUInt (bufWriter ε) n) out) ∧
    (∃ out, encodesTo (encodeInt (bufWriter ε) i) out) ∧
    (∃ out, encodesTo (encodeUnit (bufWriter ε) ()) out) ∧
    (∃ out, encodesTo (encodeTuple2 (bufWriter ε) encA encB) out) ∧
    (∃ out, encodesTo (encodeTuple3 (bufWriter ε) encA encB encC) out) ∧
    (∃ out, encodesTo (encodeTuple4 (bufWriter ε) encA encB encC encD) out) := by
  unfold encodesTo at hA hB hC hD
  refine ⟨⟨utf8Bytes d.text, fun s => rfl⟩,
    ⟨[34] ++ str.data.flatMap strCharBytes ++ [34], fun s => ?_⟩,
    ⟨[35] ++ [UInt8.ofNat (48 + (decDigits b.bytes.length).length)] ++
      decDigits b.bytes.length ++ b.bytes, fun s => ?_⟩,
    ?_,
    ⟨[68, 69, 70], fun s => rfl⟩, ?_, ?_, ?_,
    ⟨decDigits n, fun s => rfl⟩, ?_,
    ⟨[], fun s => by simp [encodeUnit]⟩,
    ⟨outA ++ [44] ++ outB, fun s => by
      simp only [encodeTuple2, hA, hB, bufWriter_writeAll, ok_bind]
      simp [List.append_assoc]⟩,
    ⟨outA ++ [44] ++ outB ++ [44] ++ outC, fun s => by
      simp only [encodeTuple3, hA, hB, hC, bufWriter_writeAll, ok_bind]
      simp [List.append_assoc]⟩,
    ⟨outA ++ [44] ++ outB ++ [44] ++ outC ++ [44] ++ outD, fun s => by
      simp only [encodeTuple4, hA, hB, hC, hD, bufWriter_writeAll, ok_bind]
      simp [List.append_assoc]⟩⟩
  · rw [encodeStr_bufWriter]
    simp
  · rw [encodeBlock_bufWriter]
    simp
  · rcases v with ⟨q, sci⟩ | _ | sp
    · exact ⟨utf8Bytes sci, fun s => rfl⟩
    · exact ⟨[78, 65, 78], fun s => rfl⟩
    · rcases sp with _ | _
      · exact ⟨[78, 73, 78, 70], fun s => rfl⟩
      · exact ⟨[73, 78, 70], fun s => rfl⟩
  · rcases lim with _ | _
    · exact ⟨[77, 73, 78], fun s => rfl⟩
    · exact ⟨[77, 65, 88], fun s => rfl⟩
  · rcases st with _ | _
    · exact ⟨[85, 80], fun s => rfl⟩
    · exact ⟨[68, 79, 87, 78], fun s => rfl⟩
  · rcases bo with _ | _
    · exact ⟨[48], fun s => rfl⟩
    · exact ⟨[49], fun s => rfl⟩
  · by_cases hi : i < 0
    · exact ⟨45 :: decDigits i.natAbs, fun s => by simp [encodeInt, hi, bufWriter_writeAll]⟩
    · exact ⟨decDigits i.natAbs, fun s => by simp [encodeInt, hi, bufWriter_writeAll]⟩

/-- Concrete determinism instance: the crate's test mnemonic `TEST`
and tuples of sentinel encoders (`1`, `DEF`, `MIN`, `UP` as elements)
each encode to a single determined byte string. -/
theorem encode_deterministic_witness :
    (∃ out, encodesTo (encodeDiscrete (bufWriter Unit) ⟨"TEST"⟩) out) ∧
    (∃ out, encodesTo (encodeTuple2 (bufWriter Unit)
        (encodeBool (bufWriter Unit) true)
        (encodeDefaultValue (bufWriter Unit) DefaultValue.mk)) out) ∧
    (∃ out, encodesTo (encodeTuple4 (bufWriter Unit)
        (encodeBool (bufWriter Unit) true)
        (encodeDefaultValue (bufWriter Unit) DefaultValue.mk)
        (encodeLimit (bufWriter Unit) Limit.min)
        (encodeStep (bufWriter Unit) Step.up)) out) := by
  have h := encode_deterministic (ε := Unit) ⟨"TEST"⟩ "foo" ⟨[17, 34, 51]⟩
    F32.nan DefaultValue.mk Limit.min Step.up true 3 (-2)
    (encodeBool (bufWriter Unit) true)
    (encodeDefaultValue (bufWriter Unit) DefaultValue.mk)
    (encodeLimit (bufWriter Unit) Limit.min)
    (encodeStep (bufWriter Unit) Step.up)
    [49] [68, 69, 70] [77, 73, 78] [85, 80]
    (fun s => rfl) (fun s => rfl) (fun s => rfl) (fun s => rfl)
  exact ⟨h.1,
    h.2.2.2.2.2.2.2.2.2.2.2.1,
    h.2.2.2.2.2.2.2.2.2.2.2.2.2⟩

/-- Claim C10: the unit value `()` implements the encoder contract as
an arity-0 composite: for every sink — any sink-state type, any
sink-error type, any write implementation, any starting state — its
encode call writes nothing (the sink state is returned unchanged) and
always succeeds. -/
theorem encodeUnit_writes_nothing_always_ok (σ ε : Type) (w : Writer σ ε)
    (s : σ) : encodeUnit w () s = Except.ok s :=
  rfl

end Scpi
